import Mathlib

/-!
Verification of the core numeric routines of the RATE framework
(`RATE_ZZ_robustness.py` and `rate_simulation.py`).

The intersection scanner works on arrays of floating-point cells whose only
non-finite value reachable there is NaN; we embed such a cell as `NpQ` (an
exact rational or the NaN marker) and translate the numpy pipeline
`np.sign`, `np.diff`, `np.where` operation by operation, keeping numpy's
NaN semantics: NaN propagates through arithmetic and through `np.sign`, and
NaN is truthy for `np.where` (it is a value that compares unequal to zero).

The anchor models, the risk-premium function and the self-consistent solver
are embedded over `ℝ`, with the standard normal cumulative distribution
supplied by the external statistics library (`scipy.stats.norm.cdf`) kept
abstract as a function parameter `Phi`.  scipy's bisection kernel (method
"bisect" of `root_scalar`, implemented in `Zeros/bisect.c`) is embedded as
a fuel-indexed recursion mirroring its C loop; the two Python-level failure
outcomes of `psychological_anchor_nonlinear` — a ValueError caught by the
bare `except` and `sol.converged == False`, both turned into `np.nan` —
are embedded as `none`.
-/

/-- A floating-point cell as seen by the intersection scanner: either a
well-defined (rational) number or numpy's not-a-number marker. -/
inductive NpQ where
  | nan : NpQ
  | num : ℚ → NpQ
  deriving DecidableEq

namespace NpQ

/-- Subtraction of two cells, with numpy's NaN propagation. -/
def sub : NpQ → NpQ → NpQ
  | num a, num b => num (a - b)
  | _, _ => nan

/-- Whether the cell holds an actual number (is not NaN). -/
def isNum : NpQ → Bool
  | nan => false
  | num _ => true

/-- numpy truthiness, as used by `np.where` on a float array: any non-zero
value is truthy, and NaN compares unequal to zero, hence is truthy. -/
def truthy : NpQ → Bool
  | nan => true
  | num q => q != 0

end NpQ

/-- The sign function on rationals, exactly as `np.sign` computes it on a
finite float: 1 for positive, -1 for negative, 0 for zero. -/
def qsign (q : ℚ) : ℚ :=
  if 0 < q then 1 else if q < 0 then -1 else 0

/-- `np.sign` on a cell: NaN maps to NaN, a number maps to its sign. -/
def npSign : NpQ → NpQ
  | NpQ.nan => NpQ.nan
  | NpQ.num q => NpQ.num (qsign q)

/-- `np.diff`: the list of differences of adjacent entries,
`out[i] = a[i+1] - a[i]`, one entry shorter than the input. -/
def npDiff (l : List NpQ) : List NpQ :=
  List.zipWith (fun a b => NpQ.sub b a) l l.tail

/-- `np.where(cond)[0]` on a 1-D float array: the ascending list of indices
holding a truthy (non-zero or NaN) value. -/
def npWhere (l : List NpQ) : List ℕ :=
  (List.range l.length).filter (fun i => (l.getD i NpQ.nan).truthy)

/-- The linear interpolation step of `find_intersection`:
`x1 - y1_1 * (x2 - x1) / (y1_2 - y1_1)`, with NaN propagation when either
difference value is NaN. -/
def interpolate (x1 x2 : ℚ) : NpQ → NpQ → NpQ
  | NpQ.num a, NpQ.num b => NpQ.num (x1 - a * (x2 - x1) / (b - a))
  | _, _ => NpQ.nan

/-- `find_intersection(x, y1, y2)` from `RATE_ZZ_robustness.py`: compute
`diff = y1 - y2`, flag the indices where `np.diff(np.sign(diff))` is
truthy, return `None` when no index is flagged, and otherwise linearly
interpolate on the first flagged adjacent pair. -/
def find_intersection (x : List ℚ) (y1 y2 : List NpQ) : Option NpQ :=
  let diff := List.zipWith NpQ.sub y1 y2
  let sign_change := npWhere (npDiff (diff.map npSign))
  match sign_change.head? with
  | none => none
  | some idx =>
      some (interpolate (x.getD idx 0) (x.getD (idx + 1) 0)
        (diff.getD idx NpQ.nan) (diff.getD (idx + 1) NpQ.nan))

/-- The pointwise difference of two fully defined curves, as rationals. -/
def pointwiseDiff (a b : List ℚ) : List ℚ :=
  List.zipWith (fun p q => p - q) a b

/-- The sign-difference list `np.diff(np.sign(d))` of a fully defined
difference curve, as rationals. -/
def signDiff (d : List ℚ) : List ℚ :=
  List.zipWith (fun a b => b - a) (d.map qsign) (d.map qsign).tail

/-- The Table B-1 printing loop of `RATE_ZZ_robustness.py`: one row
`(λ, linear σ*, non-linear σ*, their difference)` per configured λ, with a
row printed only when both equilibria are present (`is not None`). -/
def tableB1_rows (lin_star : ℚ → Option NpQ) (nonlin_star : Option NpQ)
    (lams : List ℚ) : List (ℚ × NpQ × NpQ × NpQ) :=
  lams.filterMap (fun lam =>
    match lin_star lam, nonlin_star with
    | some a, some b => some (lam, a, b, NpQ.sub a b)
    | _, _ => none)

/-- A floating-point scalar that may be infinite or NaN, used to embed
`rate_simulation.py`, whose physical-time routine returns `np.inf`. -/
inductive FVal where
  | nan : FVal
  | inf : FVal
  | val : ℝ → FVal

/-- `physical_anchor(sigma, g, M)` from `RATE_ZZ_robustness.py`: the array
is prefilled with NaN and `log(M) / (g - 0.5 σ²)` is written only where
the drift `g - 0.5 σ²` is positive, so a single cell is NaN (`none`) when
the drift is non-positive and the quotient otherwise. -/
noncomputable def physical_anchor (sigma g M : ℝ) : Option ℝ :=
  if 0 < g - 0.5 * sigma ^ 2 then some (Real.log M / (g - 0.5 * sigma ^ 2))
  else none

/-- The vectorised evaluation of `physical_anchor` over a volatility grid
(`E_T = physical_anchor(sigma_grid)` in the source). -/
noncomputable def physical_anchor_grid (grid : List ℝ) (g M : ℝ) :
    List (Option ℝ) :=
  grid.map (fun s => physical_anchor s g M)

/-- `psychological_anchor_linear(sigma, lam, r)` from
`RATE_ZZ_robustness.py`: `k = r + lam*sigma; 1.0/k`. -/
noncomputable def psychological_anchor_linear (sigma lam r : ℝ) : ℝ :=
  1 / (r + lam * sigma)

/-- `calc_psychological_time(r, sigma, risk_coeff)` from
`rate_simulation.py`: `k = r + risk_coeff*sigma; 1.0 / (k + 1e-6)` — the
source adds 1e-6 to the denominator as a division-by-zero guard. -/
noncomputable def calc_psychological_time (r sigma risk_coeff : ℝ) : ℝ :=
  1 / ((r + risk_coeff * sigma) + 1e-6)

/-- `calc_physical_time(g, sigma, M)` from `rate_simulation.py`: returns
`np.inf` (not NaN) when the drift `g - 0.5 σ²` is non-positive, and
`log(M) / (g - 0.5 σ²)` otherwise. -/
noncomputable def calc_physical_time (g sigma M : ℝ) : FVal :=
  if g - 0.5 * sigma ^ 2 ≤ 0 then FVal.inf
  else FVal.val (Real.log M / (g - 0.5 * sigma ^ 2))

/-- The tail-probability quantity `arg = 2 * (1 - Phi(sigma*sqrt(n)/4))`
of `zz_risk_premium`, with `Phi` the standard normal cumulative
distribution supplied by `scipy.stats.norm.cdf`. -/
noncomputable def zz_arg (Phi : ℝ → ℝ) (sigma n : ℝ) : ℝ :=
  2 * (1 - Phi (sigma * Real.sqrt n / 4))

/-- The finite branch of `zz_risk_premium` (reached whenever `n > 0`): the
sentinel 1e12 deep in the tail (`arg < 1e-12`), else `-log(arg)/n`. -/
noncomputable def zz_c (Phi : ℝ → ℝ) (sigma n : ℝ) : ℝ :=
  if zz_arg Phi sigma n < 1e-12 then 1e12
  else -Real.log (zz_arg Phi sigma n) / n

/-- `zz_risk_premium(sigma, n)` from `RATE_ZZ_robustness.py`: `np.inf`
(embedded as `⊤ : EReal`) for `n ≤ 0`, otherwise the finite value
`zz_c`. -/
noncomputable def zz_risk_premium (Phi : ℝ → ℝ) (sigma n : ℝ) : EReal :=
  if n ≤ 0 then ⊤ else ((zz_c Phi sigma n : ℝ) : EReal)

/-- The residual closed over by `psychological_anchor_nonlinear`:
`equation(n) = 1e6` for `n ≤ 0`, else `n - 1/(r + c(sigma, n))`; for
`n > 0` the risk premium is the finite branch `zz_c`. -/
noncomputable def equation (Phi : ℝ → ℝ) (sigma r n : ℝ) : ℝ :=
  if n ≤ 0 then 1e6 else n - 1 / (r + zz_c Phi sigma n)

/-- The iteration loop of scipy's bisect kernel: at each step halve `dm`,
probe `xm = xa + dm`, move `xa` to `xm` when `f(xm)` has the sign of
`f(xa)` (whose sign never changes, so `fa` is not recomputed), and stop
with `xm` when `f(xm) = 0` or `|dm| < xtol + rtol*|xm|`.  Exhausting the
iteration budget is the CONVERR outcome, `sol.converged == False` in
Python, hence the failure marker `none`. -/
noncomputable def bisectGo (f : ℝ → ℝ) (xtol rtol fa : ℝ) :
    ℕ → ℝ → ℝ → Option ℝ
  | 0, _, _ => none
  | k + 1, xa, dm =>
      let dm2 := dm / 2
      let xm := xa + dm2
      let fm := f xm
      if fm = 0 ∨ |dm2| < xtol + rtol * |xm| then some xm
      else bisectGo f xtol rtol fa k (if 0 ≤ fm * fa then xm else xa) dm2

/-- scipy's bisect entry: evaluate the residual at both bracket endpoints;
`fa*fb > 0` is the SIGNERR outcome (a ValueError in Python, caught by the
caller's bare `except`, hence `none`); an exact zero at an endpoint returns
that endpoint; otherwise run the loop. -/
noncomputable def scipyBisect (f : ℝ → ℝ) (xa xb xtol rtol : ℝ)
    (maxiter : ℕ) : Option ℝ :=
  let fa := f xa
  let fb := f xb
  if 0 < fa * fb then none
  else if fa = 0 then some xa
  else if fb = 0 then some xb
  else bisectGo f xtol rtol fa maxiter xa (xb - xa)

/-- scipy's default relative tolerance for bisect, `4 * eps` with
`eps = 2^(-52)`; the source overrides only the absolute tolerance. -/
noncomputable def scipy_rtol : ℝ := 4 / 2 ^ 52

/-- `psychological_anchor_nonlinear(sigma, r, guess_lam)` from
`RATE_ZZ_robustness.py` (source defaults: `r = R = 0.018`,
`guess_lam = 0.4`): seed `n_guess = 1/(r + guess_lam*sigma)`, bracket
`[max(0.1*n_guess, 0.5), min(10*n_guess, 50)]`, and solve the residual by
bisection with `xtol = 1e-6` and scipy's default `maxiter = 100`;
`none` embeds the `np.nan` failure marker. -/
noncomputable def psychological_anchor_nonlinear (Phi : ℝ → ℝ)
    (sigma r guess_lam : ℝ) : Option ℝ :=
  let n_guess := 1 / (r + guess_lam * sigma)
  let bracket_low := max (0.1 * n_guess) 0.5
  let bracket_high := min (10 * n_guess) 50
  scipyBisect (equation Phi sigma r) bracket_low bracket_high 1e-6
    scipy_rtol 100

/-- The non-linear sweep `n_nonlin = [psychological_anchor_nonlinear(s)
for s in sigma_grid]` (with the source's default `r = 0.018`,
`guess_lam = 0.4`). -/
noncomputable def n_nonlin (Phi : ℝ → ℝ) (grid : List ℝ) :
    List (Option ℝ) :=
  grid.map (fun s => psychological_anchor_nonlinear Phi s 0.018 0.4)

/-- `valid_mask = ~np.isnan(n_nonlin)`: true exactly at the grid points
where the solver produced a value. -/
noncomputable def valid_mask (Phi : ℝ → ℝ) (grid : List ℝ) : List Bool :=
  (n_nonlin Phi grid).map Option.isSome

/-! ### Helper lemmas about the intersection scanner -/

lemma filter_head? {α : Type} (p : α → Bool) (l : List α) :
    (l.filter p).head? = l.find? p := by
  induction l with
  | nil => rfl
  | cons a t ih =>
      cases h : p a with
      | true => simp [List.filter_cons, h]
      | false => simp [List.filter_cons, h, ih]

lemma find?_range'_eq_some (p : ℕ → Bool) :
    ∀ (n s i : ℕ), s ≤ i → i < s + n → p i = true →
      (∀ j, s ≤ j → j < i → p j = false) →
      (List.range' s n).find? p = some i := by
  intro n
  induction n with
  | zero => intro s i h1 h2 _ _; omega
  | succ n ih =>
      intro s i h1 h2 hp hmin
      rw [List.range'_succ]
      rcases Nat.eq_or_lt_of_le h1 with he | hlt
      · subst he
        simp [hp]
      · have hps : p s = false := hmin s le_rfl hlt
        rw [List.find?_cons_of_neg _ (by simp [hps])]
        exact ih (s + 1) i hlt (by omega) hp
          (fun j hj1 hj2 => hmin j (by omega) hj2)

lemma npWhere_head?_of_first (l : List NpQ) (i : ℕ) (hi : i < l.length)
    (ht : (l.getD i NpQ.nan).truthy = true)
    (hmin : ∀ j, j < i → (l.getD j NpQ.nan).truthy = false) :
    (npWhere l).head? = some i := by
  unfold npWhere
  rw [filter_head?, List.range_eq_range']
  exact find?_range'_eq_some _ l.length 0 i (Nat.zero_le i) (by omega) ht
    (fun j _ hj => hmin j hj)

lemma npWhere_head?_mem (l : List NpQ) (i : ℕ)
    (h : (npWhere l).head? = some i) :
    i < l.length ∧ (l.getD i NpQ.nan).truthy = true := by
  have hmem : i ∈ npWhere l := by
    rcases List.head?_eq_some_iff.1 h with ⟨ys, hys⟩
    rw [hys]
    exact List.mem_cons_self i ys
  unfold npWhere at hmem
  rcases List.mem_filter.1 hmem with ⟨hr, hp⟩
  exact ⟨List.mem_range.1 hr, by simpa using hp⟩

lemma npWhere_nil_of_all_false (l : List NpQ)
    (h : ∀ v ∈ l, v.truthy = false) : npWhere l = [] := by
  unfold npWhere
  rw [List.filter_eq_nil_iff]
  intro i hi
  have hlt : i < l.length := List.mem_range.1 hi
  have hg : l.getD i NpQ.nan = l[i] := List.getD_eq_getElem l NpQ.nan hlt
  rw [hg, h l[i] (List.getElem_mem hlt)]
  simp

lemma zipWith_sub_num (a b : List ℚ) :
    List.zipWith NpQ.sub (a.map NpQ.num) (b.map NpQ.num)
      = (pointwiseDiff a b).map NpQ.num := by
  unfold pointwiseDiff
  rw [List.zipWith_map, List.map_zipWith]
  rfl

lemma map_npSign_num (d : List ℚ) :
    (d.map NpQ.num).map npSign = (d.map qsign).map NpQ.num := by
  simp only [List.map_map]
  rfl

lemma npDiff_map_num (s : List ℚ) :
    npDiff (s.map NpQ.num)
      = (List.zipWith (fun a b => b - a) s s.tail).map NpQ.num := by
  unfold npDiff
  rw [← List.map_tail, List.zipWith_map, List.map_zipWith]
  rfl

lemma sign_pipeline (a b : List ℚ) :
    npDiff ((List.zipWith NpQ.sub (a.map NpQ.num) (b.map NpQ.num)).map npSign)
      = (signDiff (pointwiseDiff a b)).map NpQ.num := by
  rw [zipWith_sub_num, map_npSign_num, npDiff_map_num]
  rfl

lemma signDiff_length (d : List ℚ) : (signDiff d).length = d.length - 1 := by
  simp [signDiff]

lemma signDiff_getElem (d : List ℚ) (j : ℕ) (hj : j < (signDiff d).length)
    (hj1 : j + 1 < d.length) (hj0 : j < d.length) :
    (signDiff d)[j] = qsign d[j + 1] - qsign d[j] := by
  unfold signDiff
  rw [List.getElem_zipWith]
  congr 1
  · rw [List.getElem_tail, List.getElem_map]
  · rw [List.getElem_map]

lemma getD_map_num (d : List ℚ) (j : ℕ) (hj : j < d.length) :
    (d.map NpQ.num).getD j NpQ.nan = NpQ.num (d.getD j 0) := by
  rw [List.getD_eq_getElem _ _ (by simpa using hj), List.getElem_map,
      List.getD_eq_getElem _ _ hj]

lemma isNum_false_iff (v : NpQ) : v.isNum = false ↔ v = NpQ.nan := by
  cases v <;> simp [NpQ.isNum]

lemma find_intersection_eq_none (x : List ℚ) (y1 y2 : List NpQ)
    (h : (npWhere (npDiff ((List.zipWith NpQ.sub y1 y2).map npSign))).head?
      = none) :
    find_intersection x y1 y2 = none := by
  simp only [find_intersection]
  rw [h]

lemma find_intersection_eq_some (x : List ℚ) (y1 y2 : List NpQ) (i : ℕ)
    (h : (npWhere (npDiff ((List.zipWith NpQ.sub y1 y2).map npSign))).head?
      = some i) :
    find_intersection x y1 y2
      = some (interpolate (x.getD i 0) (x.getD (i + 1) 0)
          ((List.zipWith NpQ.sub y1 y2).getD i NpQ.nan)
          ((List.zipWith NpQ.sub y1 y2).getD (i + 1) NpQ.nan)) := by
  simp only [find_intersection]
  rw [h]

/-! ### Claim theorems about the intersection scanner -/

/-- C4: for a strictly increasing grid and aligned, fully defined curves
whose pointwise difference first changes sign (in the `np.sign` sense,
where an exact zero is its own sign) between samples `i` and `i+1`,
`find_intersection` returns the linearly interpolated zero-crossing
`x_i - d_i*(x_{i+1}-x_i)/(d_{i+1}-d_i)` of that FIRST pair, ignoring every
later crossing. -/
theorem C4_first_sign_change_interpolated
    (x : List ℚ) (ys1 ys2 : List ℚ)
    (hx : x.length = ys1.length) (hlen : ys1.length = ys2.length)
    (hmono : List.Chain' (fun a b => a < b) x)
    (i : ℕ) (hi : i + 1 < (pointwiseDiff ys1 ys2).length)
    (hchg : qsign ((pointwiseDiff ys1 ys2).getD i 0)
      ≠ qsign ((pointwiseDiff ys1 ys2).getD (i + 1) 0))
    (hfirst : ∀ j, j < i → qsign ((pointwiseDiff ys1 ys2).getD j 0)
      = qsign ((pointwiseDiff ys1 ys2).getD (j + 1) 0)) :
    find_intersection x (ys1.map NpQ.num) (ys2.map NpQ.num)
      = some (NpQ.num (x.getD i 0
          - (pointwiseDiff ys1 ys2).getD i 0
            * (x.getD (i + 1) 0 - x.getD i 0)
            / ((pointwiseDiff ys1 ys2).getD (i + 1) 0
              - (pointwiseDiff ys1 ys2).getD i 0))) := by
  set d := pointwiseDiff ys1 ys2 with hd
  have hi1 : i < d.length := by omega
  have hsd : i < (signDiff d).length := by rw [signDiff_length]; omega
  have hsdm : i < ((signDiff d).map NpQ.num).length := by simpa using hsd
  have hval : ∀ j (hj : j < (signDiff d).length),
      ((signDiff d).map NpQ.num).getD j NpQ.nan
        = NpQ.num (qsign (d.getD (j + 1) 0) - qsign (d.getD j 0)) := by
    intro j hj
    have hj1 : j + 1 < d.length := by
      have := signDiff_length d; omega
    have hj0 : j < d.length := by omega
    rw [getD_map_num _ _ hj, List.getD_eq_getElem _ _ hj,
      signDiff_getElem d j hj hj1 hj0,
      List.getD_eq_getElem _ _ hj1, List.getD_eq_getElem _ _ hj0]
  have hhead : (npWhere ((signDiff d).map NpQ.num)).head? = some i := by
    apply npWhere_head?_of_first _ i hsdm
    · rw [hval i hsd]
      simp only [NpQ.truthy, bne_iff_ne, ne_eq, sub_ne_zero]
      exact fun hcon => hchg hcon.symm
    · intro j hj
      have hjs : j < (signDiff d).length := by omega
      rw [hval j hjs, hfirst j hj]
      simp [NpQ.truthy]
  have hhead2 : (npWhere (npDiff ((List.zipWith NpQ.sub (ys1.map NpQ.num)
      (ys2.map NpQ.num)).map npSign))).head? = some i := by
    rw [sign_pipeline, ← hd]
    exact hhead
  rw [find_intersection_eq_some _ _ _ i hhead2, zipWith_sub_num ys1 ys2,
    ← hd, getD_map_num d i hi1, getD_map_num d (i + 1) hi]
  rfl

/-- Witness for C4 at the spec's synthetic example `A(x) = x`,
`B(x) = 1 - x` on the grid `{0, 1/2, 1}`: the first (and only) sign change
is at the pair `(0, 1)` and the interpolated crossing is `1/2`. -/
theorem C4_witness :
    qsign ((pointwiseDiff [0, 1/2, 1] [1, 1/2, 0]).getD 0 0)
      ≠ qsign ((pointwiseDiff [0, 1/2, 1] [1, 1/2, 0]).getD 1 0)
    ∧ find_intersection [0, 1/2, 1]
        ([0, 1/2, 1].map NpQ.num) ([1, 1/2, 0].map NpQ.num)
      = some (NpQ.num (1/2)) := by
  have hchg : qsign ((pointwiseDiff [0, 1/2, 1] [1, 1/2, 0]).getD 0 0)
      ≠ qsign ((pointwiseDiff [0, 1/2, 1] [1, 1/2, 0]).getD (0 + 1) 0) := by
    norm_num [pointwiseDiff, qsign]
  refine ⟨hchg, ?_⟩
  have h := C4_first_sign_change_interpolated [0, 1/2, 1] [0, 1/2, 1]
    [1, 1/2, 0] rfl rfl (by norm_num [List.chain'_cons]) 0
    (by simp [pointwiseDiff]) hchg
    (fun j hj => absurd hj (Nat.not_lt_zero j))
  rw [h]
  norm_num [pointwiseDiff]

/-- C5 (amended): an adjacent pair whose difference involves NaN is NOT
skipped: `np.sign` maps NaN to NaN, the sign difference is then NaN, and
`np.where` treats NaN as truthy, so such a pair IS flagged as a sign
change; when the first flagged pair carries a NaN difference value the
returned "crossing" is the NaN marker itself.  Only for fully defined
curves is the result always `none` or a numeric crossing. -/
theorem C5_nan_pairs_flagged_not_skipped :
    (∀ (x : List ℚ) (ys1 ys2 : List ℚ),
        find_intersection x (ys1.map NpQ.num) (ys2.map NpQ.num) = none
        ∨ ∃ q : ℚ, find_intersection x (ys1.map NpQ.num) (ys2.map NpQ.num)
            = some (NpQ.num q))
    ∧ (∀ (x : List ℚ) (y1 y2 : List NpQ) (i : ℕ),
        (npWhere (npDiff ((List.zipWith NpQ.sub y1 y2).map npSign))).head?
          = some i →
        ((List.zipWith NpQ.sub y1 y2).getD i NpQ.nan).isNum = false
          ∨ ((List.zipWith NpQ.sub y1 y2).getD (i + 1) NpQ.nan).isNum
            = false →
        find_intersection x y1 y2 = some NpQ.nan) := by
  constructor
  · intro x ys1 ys2
    cases hh : (npWhere (npDiff ((List.zipWith NpQ.sub (ys1.map NpQ.num)
        (ys2.map NpQ.num)).map npSign))).head? with
    | none => exact Or.inl (find_intersection_eq_none x _ _ hh)
    | some i =>
        refine Or.inr ?_
        have hmem := npWhere_head?_mem _ i (by rw [sign_pipeline] at hh; exact hh)
        have hi1 : i + 1 < (pointwiseDiff ys1 ys2).length := by
          have := signDiff_length (pointwiseDiff ys1 ys2)
          have h1 := hmem.1
          simp only [List.length_map] at h1
          omega
        have hi0 : i < (pointwiseDiff ys1 ys2).length := by omega
        rw [find_intersection_eq_some x _ _ i hh, zipWith_sub_num ys1 ys2,
          getD_map_num _ _ hi0, getD_map_num _ _ hi1]
        exact ⟨_, rfl⟩
  · intro x y1 y2 i hh hnan
    rw [find_intersection_eq_some x _ _ i hh]
    rcases hnan with h | h
    · rw [(isNum_false_iff _).1 h]
      rfl
    · rw [(isNum_false_iff _).1 h]
      cases (List.zipWith NpQ.sub y1 y2).getD i NpQ.nan <;> rfl

/-- Counterexample to C5 as stated: with a NaN at the head of the first
curve and no genuine crossing anywhere, the claim demands the NaN pair be
skipped and the result be `none`; in fact the scan flags the NaN pair as a
sign change and the interpolation returns the NaN marker, which is neither
`none` nor a numeric crossing. -/
theorem C5_counterexample :
    find_intersection [0, 1, 2] [NpQ.nan, NpQ.num 1, NpQ.num 1]
        [NpQ.num 0, NpQ.num 0, NpQ.num 0] = some NpQ.nan
    ∧ NpQ.nan.isNum = false := by
  constructor
  · norm_num [find_intersection, npWhere, npDiff, npSign, qsign, NpQ.sub,
      NpQ.truthy, interpolate, List.range_succ]
  · rfl

/-- Witness for C5 (amended), applying both halves at concrete inputs:
defined curves `x` and `1 - x` give a numeric result, and the NaN-headed
curves of the counterexample input give `some NaN` through the second
half. -/
theorem C5_witness :
    (find_intersection [0, 1] ([0, 1].map NpQ.num) ([1, 0].map NpQ.num)
        = none
      ∨ ∃ q : ℚ, find_intersection [0, 1] ([0, 1].map NpQ.num)
          ([1, 0].map NpQ.num) = some (NpQ.num q))
    ∧ find_intersection [0, 1, 2] [NpQ.nan, NpQ.num 1, NpQ.num 1]
        [NpQ.num 0, NpQ.num 0, NpQ.num 0] = some NpQ.nan := by
  constructor
  · exact C5_nan_pairs_flagged_not_skipped.1 [0, 1] [0, 1] [1, 0]
  · refine C5_nan_pairs_flagged_not_skipped.2 [0, 1, 2] _ _ 0 ?_ ?_
    · norm_num [npWhere, npDiff, npSign, qsign, NpQ.sub, NpQ.truthy,
        List.range_succ]
    · left
      norm_num [NpQ.sub, NpQ.isNum]

/-- C8: when the sign-difference scan flags no adjacent pair,
`find_intersection` returns `None` (a normal outcome, not an exception),
and the Table B-1 loop omits the row of a λ whose linear equilibrium is
missing — and every row when the non-linear equilibrium is missing —
instead of failing. -/
theorem C8_no_sign_change_none_and_rows_omitted :
    (∀ (x : List ℚ) (y1 y2 : List NpQ),
        (∀ v ∈ npDiff ((List.zipWith NpQ.sub y1 y2).map npSign),
          v.truthy = false) →
        find_intersection x y1 y2 = none)
    ∧ (∀ (f : ℚ → Option NpQ) (n : Option NpQ) (lam : ℚ) (rest : List ℚ),
        f lam = none →
        tableB1_rows f n (lam :: rest) = tableB1_rows f n rest)
    ∧ (∀ (f : ℚ → Option NpQ) (lams : List ℚ),
        tableB1_rows f none lams = []) := by
  refine ⟨?_, ?_, ?_⟩
  · intro x y1 y2 h
    apply find_intersection_eq_none
    rw [npWhere_nil_of_all_false _ h]
    rfl
  · intro f n lam rest h
    simp [tableB1_rows, List.filterMap_cons, h]
  · intro f lams
    induction lams with
    | nil => rfl
    | cons a t ih =>
        cases hf : f a with
        | none => simpa [tableB1_rows, List.filterMap_cons, hf] using ih
        | some v => simpa [tableB1_rows, List.filterMap_cons, hf] using ih

/-- Witness for C8: non-crossing curves `x + 1` and `x` over `{0, 1}` give
`None`, a missing linear equilibrium drops exactly its row, and a missing
non-linear equilibrium drops every row. -/
theorem C8_witness :
    find_intersection [0, 1] [NpQ.num 1, NpQ.num 2] [NpQ.num 0, NpQ.num 1]
        = none
    ∧ tableB1_rows (fun _ => none) (some (NpQ.num 1)) [1, 2]
        = tableB1_rows (fun _ => none) (some (NpQ.num 1)) [2]
    ∧ tableB1_rows (fun _ => some (NpQ.num 1)) none [1] = [] := by
  refine ⟨C8_no_sign_change_none_and_rows_omitted.1 [0, 1] _ _ ?_,
    C8_no_sign_change_none_and_rows_omitted.2.1 _ _ 1 [2] rfl,
    C8_no_sign_change_none_and_rows_omitted.2.2 _ [1]⟩
  intro v hv
  norm_num [npDiff, npSign, qsign, NpQ.sub] at hv
  rw [hv]
  rfl

/-- C10: whenever the scan flags a sign change between adjacent samples of
fully defined curves, the two difference values have different `np.sign`
values, hence are unequal, so the interpolation denominator
`d_{i+1} - d_i` is non-zero and the returned crossing is a number. -/
theorem C10_denominator_nonzero
    (x : List ℚ) (ys1 ys2 : List ℚ) (i : ℕ)
    (hh : (npWhere (npDiff ((List.zipWith NpQ.sub (ys1.map NpQ.num)
        (ys2.map NpQ.num)).map npSign))).head? = some i) :
    (pointwiseDiff ys1 ys2).getD (i + 1) 0
      - (pointwiseDiff ys1 ys2).getD i 0 ≠ 0
    ∧ ∃ q : ℚ, find_intersection x (ys1.map NpQ.num) (ys2.map NpQ.num)
        = some (NpQ.num q) := by
  have hh2 := hh
  rw [sign_pipeline] at hh2
  have hmem := npWhere_head?_mem _ i hh2
  have hlen : i < (signDiff (pointwiseDiff ys1 ys2)).length := by
    have := hmem.1
    simpa using this
  have hi1 : i + 1 < (pointwiseDiff ys1 ys2).length := by
    have := signDiff_length (pointwiseDiff ys1 ys2)
    omega
  have hi0 : i < (pointwiseDiff ys1 ys2).length := by omega
  constructor
  · have htr := hmem.2
    rw [getD_map_num _ _ hlen, List.getD_eq_getElem _ _ hlen,
      signDiff_getElem _ i hlen hi1 hi0] at htr
    simp only [NpQ.truthy, bne_iff_ne, ne_eq, sub_ne_zero] at htr
    intro hcon
    apply htr
    rw [List.getD_eq_getElem _ _ hi1, List.getD_eq_getElem _ _ hi0] at hcon
    have : (pointwiseDiff ys1 ys2)[i + 1] = (pointwiseDiff ys1 ys2)[i] := by
      exact sub_eq_zero.1 hcon
    rw [this]
  · rw [find_intersection_eq_some x _ _ i hh, zipWith_sub_num ys1 ys2,
      getD_map_num _ _ hi0, getD_map_num _ _ hi1]
    exact ⟨_, rfl⟩

/-- Witness for C10 at the crossing curves `x` and `1 - x` over `{0, 1}`:
the scan flags pair `(0, 1)`, the denominator is `2 ≠ 0`, and the result
is numeric. -/
theorem C10_witness :
    (pointwiseDiff [0, 1] [1, 0]).getD 1 0
      - (pointwiseDiff [0, 1] [1, 0]).getD 0 0 ≠ 0
    ∧ ∃ q : ℚ, find_intersection [0, 1] ([0, 1].map NpQ.num)
        ([1, 0].map NpQ.num) = some (NpQ.num q) := by
  have h := C10_denominator_nonzero [0, 1] [0, 1] [1, 0] 0 (by
    norm_num [npWhere, npDiff, npSign, qsign, NpQ.sub, NpQ.truthy,
      List.map, List.range_succ])
  exact ⟨h.1, h.2⟩

/-! ### Claim theorems about the anchor models and the risk premium -/

/-- C6 (amended): `physical_anchor` in `RATE_ZZ_robustness.py` returns the
NaN marker exactly when the drift `g - 0.5 σ²` is non-positive and
`log(M)/(g - 0.5 σ²)` otherwise, and grid evaluation is pointwise and
total; `calc_physical_time` in `rate_simulation.py` uses infinity — not
NaN — as its out-of-domain marker, with the same defined value
otherwise. -/
theorem C6_physical_anchor_domain :
    (∀ sigma g M : ℝ,
        (g - 0.5 * sigma ^ 2 ≤ 0 → physical_anchor sigma g M = none)
        ∧ (0 < g - 0.5 * sigma ^ 2 →
            physical_anchor sigma g M
              = some (Real.log M / (g - 0.5 * sigma ^ 2))))
    ∧ (∀ (grid : List ℝ) (g M : ℝ),
        (physical_anchor_grid grid g M).length = grid.length
        ∧ ∀ i, i < grid.length →
            (physical_anchor_grid grid g M).getD i none
              = physical_anchor (grid.getD i 0) g M)
    ∧ (∀ g sigma M : ℝ,
        (g - 0.5 * sigma ^ 2 ≤ 0 → calc_physical_time g sigma M = FVal.inf)
        ∧ (0 < g - 0.5 * sigma ^ 2 →
            calc_physical_time g sigma M
              = FVal.val (Real.log M / (g - 0.5 * sigma ^ 2)))) := by
  refine ⟨?_, ?_, ?_⟩
  · intro sigma g M
    constructor
    · intro h
      rw [physical_anchor, if_neg (not_lt.2 h)]
    · intro h
      rw [physical_anchor, if_pos h]
  · intro grid g M
    refine ⟨by simp [physical_anchor_grid], ?_⟩
    intro i hi
    have hi2 : i < (physical_anchor_grid grid g M).length := by
      simpa [physical_anchor_grid] using hi
    rw [List.getD_eq_getElem _ _ hi2]
    simp only [physical_anchor_grid, List.getElem_map]
    rw [List.getD_eq_getElem _ _ hi]
  · intro g sigma M
    constructor
    · intro h
      rw [calc_physical_time, if_pos h]
    · intro h
      rw [calc_physical_time, if_neg (not_le.2 h)]

/-- Counterexample to C6 as stated: at `g = 0.2`, `sigma = 1`, `M = 2` the
drift is negative, and `calc_physical_time` — one of the two routines the
claim covers — returns the INFINITY marker, not the claimed
not-a-number. -/
theorem C6_counterexample :
    calc_physical_time 0.2 1 2 = FVal.inf ∧ FVal.inf ≠ FVal.nan := by
  constructor
  · rw [calc_physical_time, if_pos (by norm_num : (0.2:ℝ) - 0.5 * 1 ^ 2 ≤ 0)]
  · intro h
    exact FVal.noConfusion h

/-- Witness for C6 (amended): the undefined branch at `sigma = 1`, the
defined branch at `sigma = 0` (both with `g = 0.2`, `M = 2`), and the
pointwise grid evaluation on the one-point grid `[1]`. -/
theorem C6_witness :
    ((0.2:ℝ) - 0.5 * 1 ^ 2 ≤ 0 ∧ physical_anchor 1 0.2 2 = none)
    ∧ (0 < (0.2:ℝ) - 0.5 * 0 ^ 2
        ∧ physical_anchor 0 0.2 2 = some (Real.log 2 / (0.2 - 0.5 * 0 ^ 2)))
    ∧ (physical_anchor_grid [1] 0.2 2).getD 0 none
        = physical_anchor (([1] : List ℝ).getD 0 0) 0.2 2 := by
  refine ⟨⟨by norm_num, (C6_physical_anchor_domain.1 1 0.2 2).1 (by norm_num)⟩,
    ⟨by norm_num, (C6_physical_anchor_domain.1 0 0.2 2).2 (by norm_num)⟩,
    (C6_physical_anchor_domain.2.1 [1] 0.2 2).2 0 (by norm_num)⟩

/-- C7 (amended): `psychological_anchor_linear` is exactly `1/(r + λσ)`
and strictly positive for `σ ≥ 0`, `λ ≥ 0`, `r > 0`; the simulation
engine's `calc_psychological_time` instead computes `1/(r + λσ + 1e-6)`
(the source's guard against a zero denominator), also strictly
positive. -/
theorem C7_linear_anchor_exact_positive (sigma lam r : ℝ)
    (hs : 0 ≤ sigma) (hlam : 0 ≤ lam) (hr : 0 < r) :
    psychological_anchor_linear sigma lam r = 1 / (r + lam * sigma)
    ∧ 0 < psychological_anchor_linear sigma lam r
    ∧ calc_psychological_time r sigma lam = 1 / (r + lam * sigma + 1e-6)
    ∧ 0 < calc_psychological_time r sigma lam := by
  have hk : 0 < r + lam * sigma :=
    add_pos_of_pos_of_nonneg hr (mul_nonneg hlam hs)
  refine ⟨rfl, ?_, rfl, ?_⟩
  · rw [psychological_anchor_linear]
    exact one_div_pos.2 hk
  · rw [calc_psychological_time]
    apply one_div_pos.2
    linarith

/-- Counterexample to C7 as stated: at `r = 0.018`, `sigma = 0`,
`risk_coeff = 0.2`, `calc_psychological_time` — one of the two routines
the claim covers — is `1/0.018001`, not the claimed exact
`1/(r + λσ) = 1/0.018`. -/
theorem C7_counterexample :
    calc_psychological_time 0.018 0 0.2 ≠ 1 / (0.018 + 0.2 * 0) := by
  rw [calc_psychological_time]
  norm_num

/-- Witness for C7 (amended) at `sigma = 0`, `lam = 0.2`, `r = 0.018`. -/
theorem C7_witness :
    (0:ℝ) ≤ 0 ∧ (0:ℝ) ≤ 0.2 ∧ (0:ℝ) < 0.018
    ∧ 0 < psychological_anchor_linear 0 0.2 0.018
    ∧ 0 < calc_psychological_time 0.018 0 0.2 := by
  have h := C7_linear_anchor_exact_positive 0 0.2 0.018 le_rfl (by norm_num)
    (by norm_num)
  exact ⟨le_rfl, by norm_num, by norm_num, h.2.1, h.2.2.2⟩

/-- C2: `zz_risk_premium` is `+∞` for `n ≤ 0`; for `n > 0` it computes
`x = σ√n/4` and `arg = 2(1 - Φ(x))`, returns the sentinel `1e12` when
`arg < 1e-12`, and `-log(arg)/n` otherwise. -/
theorem C2_risk_premium_formula (Phi : ℝ → ℝ) (sigma n : ℝ) :
    (n ≤ 0 → zz_risk_premium Phi sigma n = ⊤)
    ∧ (0 < n →
        zz_risk_premium Phi sigma n =
          if 2 * (1 - Phi (sigma * Real.sqrt n / 4)) < 1e-12
          then ((1e12 : ℝ) : EReal)
          else ((-Real.log (2 * (1 - Phi (sigma * Real.sqrt n / 4))) / n : ℝ)
            : EReal)) := by
  constructor
  · intro h
    rw [zz_risk_premium, if_pos h]
  · intro h
    rw [zz_risk_premium, if_neg (not_le.2 h)]
    unfold zz_c zz_arg
    split_ifs <;> rfl

/-- Witness for C2, with the CDF held at its value `Φ(0) = 1/2`: the
degenerate branch at `n = -1` and the generic branch at `n = 1`. -/
theorem C2_witness :
    ((-1 : ℝ) ≤ 0 ∧ zz_risk_premium (fun _ => (1:ℝ)/2) 0 (-1) = ⊤)
    ∧ ((0:ℝ) < 1 ∧ zz_risk_premium (fun _ => (1:ℝ)/2) 0 1 =
        if 2 * (1 - (1:ℝ)/2) < 1e-12 then ((1e12 : ℝ) : EReal)
        else ((-Real.log (2 * (1 - (1:ℝ)/2)) / 1 : ℝ) : EReal)) :=
  ⟨⟨by norm_num, (C2_risk_premium_formula (fun _ => (1:ℝ)/2) 0 (-1)).1
      (by norm_num)⟩,
   ⟨by norm_num, (C2_risk_premium_formula (fun _ => (1:ℝ)/2) 0 1).2
      (by norm_num)⟩⟩

/-- C9: for `σ ≥ 0` and `n > 0` (with the CDF above 1/2 on the
non-negative axis and bounded by 1, as the standard normal CDF is), the
risk premium is a finite non-negative real — either the sentinel `1e12`
or `-log(arg)/n ≥ 0` — and the infinite value occurs only for
`n ≤ 0`. -/
theorem C9_risk_premium_finite_nonneg (Phi : ℝ → ℝ) (sigma n : ℝ)
    (hs : 0 ≤ sigma) (hn : 0 < n)
    (hPhi_half : ∀ y, 0 ≤ y → 1/2 ≤ Phi y) (hPhi_le : ∀ y, Phi y ≤ 1) :
    zz_risk_premium Phi sigma n = ((zz_c Phi sigma n : ℝ) : EReal)
    ∧ zz_risk_premium Phi sigma n ≠ ⊤
    ∧ zz_risk_premium Phi sigma n ≠ ⊥
    ∧ 0 ≤ zz_c Phi sigma n
    ∧ (∀ s m : ℝ, zz_risk_premium Phi s m = ⊤ → m ≤ 0) := by
  have heq : zz_risk_premium Phi sigma n = ((zz_c Phi sigma n : ℝ) : EReal) := by
    rw [zz_risk_premium, if_neg (not_le.2 hn)]
  have hx : 0 ≤ sigma * Real.sqrt n / 4 :=
    div_nonneg (mul_nonneg hs (Real.sqrt_nonneg n)) (by norm_num)
  have hc : 0 ≤ zz_c Phi sigma n := by
    rw [zz_c]
    split_ifs with h1
    · norm_num
    · push_neg at h1
      have harg_pos : 0 < zz_arg Phi sigma n :=
        lt_of_lt_of_le (by norm_num) h1
      have harg_le : zz_arg Phi sigma n ≤ 1 := by
        rw [zz_arg]
        have := hPhi_half _ hx
        linarith
      have hlog : Real.log (zz_arg Phi sigma n) ≤ 0 :=
        Real.log_nonpos harg_pos.le harg_le
      exact div_nonneg (by linarith) hn.le
  refine ⟨heq, by rw [heq]; exact EReal.coe_ne_top _,
    by rw [heq]; exact EReal.coe_ne_bot _, hc, ?_⟩
  intro s m htop
  by_contra hm
  push_neg at hm
  rw [zz_risk_premium, if_neg (not_le.2 hm)] at htop
  exact EReal.coe_ne_top _ htop

/-- Witness for C9 at `Φ` held at 1/2, `σ = 0`, `n = 1`. -/
theorem C9_witness :
    (0:ℝ) ≤ 0 ∧ (0:ℝ) < 1
    ∧ zz_risk_premium (fun _ => (1:ℝ)/2) 0 1 ≠ ⊤
    ∧ 0 ≤ zz_c (fun _ => (1:ℝ)/2) 0 1 := by
  have h := C9_risk_premium_finite_nonneg (fun _ => (1:ℝ)/2) 0 1 le_rfl
    (by norm_num) (fun y _ => le_rfl) (fun y => by norm_num)
  exact ⟨le_rfl, by norm_num, h.2.1, h.2.2.2.1⟩

/-! ### Claim theorems about the self-consistent solver -/

lemma bisectGo_mem (f : ℝ → ℝ) (xtol rtol fa lo hi : ℝ) :
    ∀ (k : ℕ) (xa dm : ℝ), lo ≤ xa → xa ≤ hi → lo ≤ xa + dm →
      xa + dm ≤ hi →
      ∀ n, bisectGo f xtol rtol fa k xa dm = some n → lo ≤ n ∧ n ≤ hi := by
  intro k
  induction k with
  | zero =>
      intro xa dm _ _ _ _ n h
      simp [bisectGo] at h
  | succ k ih =>
      intro xa dm h1 h2 h3 h4 n h
      simp only [bisectGo] at h
      have hm1 : lo ≤ xa + dm / 2 := by linarith
      have hm2 : xa + dm / 2 ≤ hi := by linarith
      by_cases hc : f (xa + dm / 2) = 0
        ∨ |dm / 2| < xtol + rtol * |xa + dm / 2|
      · rw [if_pos hc] at h
        injection h with h
        subst h
        exact ⟨hm1, hm2⟩
      · rw [if_neg hc] at h
        by_cases hs : 0 ≤ f (xa + dm / 2) * fa
        · rw [if_pos hs] at h
          have he : xa + dm / 2 + dm / 2 = xa + dm := by ring
          exact ih (xa + dm / 2) (dm / 2) hm1 hm2 (by rw [he]; exact h3)
            (by rw [he]; exact h4) n h
        · rw [if_neg hs] at h
          exact ih xa (dm / 2) h1 h2 hm1 hm2 n h

lemma scipyBisect_mem (f : ℝ → ℝ) (xa xb xtol rtol : ℝ) (k : ℕ) (n : ℝ)
    (h : scipyBisect f xa xb xtol rtol k = some n) :
    min xa xb ≤ n ∧ n ≤ max xa xb := by
  simp only [scipyBisect] at h
  by_cases h1 : 0 < f xa * f xb
  · rw [if_pos h1] at h
    exact absurd h (by simp)
  · rw [if_neg h1] at h
    by_cases h2 : f xa = 0
    · rw [if_pos h2] at h
      injection h with h
      subst h
      exact ⟨min_le_left _ _, le_max_left _ _⟩
    · rw [if_neg h2] at h
      by_cases h3 : f xb = 0
      · rw [if_pos h3] at h
        injection h with h
        subst h
        exact ⟨min_le_right _ _, le_max_right _ _⟩
      · rw [if_neg h3] at h
        have he : xa + (xb - xa) = xb := by ring
        exact bisectGo_mem f xtol rtol (f xa) (min xa xb) (max xa xb) k xa
          (xb - xa) (min_le_left _ _) (le_max_left _ _)
          (by rw [he]; exact min_le_right _ _)
          (by rw [he]; exact le_max_right _ _) n h

/-- C3: for `σ ≥ 0`, `r > 0`, the solver is exactly scipy bisection of the
residual seeded from the linear approximation with coefficient 0.4
(`n_guess = 1/(r + 0.4σ)`), over the bracket
`[max(0.1 n_guess, 0.5), min(10 n_guess, 50)]`, with absolute tolerance
`1e-6` on `n`; any returned root lies between the bracket endpoints, and
whenever `0.002 ≤ r + 0.4σ ≤ 20` (as for every grid point of the source's
sweep) the bracket is properly ordered. -/
theorem C3_bracket_seeding_and_tolerance (Phi : ℝ → ℝ) (sigma r : ℝ)
    (hs : 0 ≤ sigma) (hr : 0 < r) :
    psychological_anchor_nonlinear Phi sigma r 0.4
      = scipyBisect (equation Phi sigma r)
          (max (0.1 * (1 / (r + 0.4 * sigma))) 0.5)
          (min (10 * (1 / (r + 0.4 * sigma))) 50) 1e-6 scipy_rtol 100
    ∧ (∀ n, psychological_anchor_nonlinear Phi sigma r 0.4 = some n →
        min (max (0.1 * (1 / (r + 0.4 * sigma))) 0.5)
            (min (10 * (1 / (r + 0.4 * sigma))) 50) ≤ n
        ∧ n ≤ max (max (0.1 * (1 / (r + 0.4 * sigma))) 0.5)
            (min (10 * (1 / (r + 0.4 * sigma))) 50))
    ∧ ((1:ℝ)/500 ≤ r + 0.4 * sigma → r + 0.4 * sigma ≤ 20 →
        max (0.1 * (1 / (r + 0.4 * sigma))) 0.5
          ≤ min (10 * (1 / (r + 0.4 * sigma))) 50) := by
  refine ⟨rfl, ?_, ?_⟩
  · intro n h
    exact scipyBisect_mem (equation Phi sigma r) _ _ _ _ 100 n h
  · intro hlow hhigh
    have hk : 0 < r + 0.4 * sigma := lt_of_lt_of_le (by norm_num) hlow
    have hg_pos : 0 < 1 / (r + 0.4 * sigma) := one_div_pos.2 hk
    have hg_le : 1 / (r + 0.4 * sigma) ≤ 500 := by
      rw [div_le_iff₀ hk]
      linarith
    have hg_ge : 1/20 ≤ 1 / (r + 0.4 * sigma) := by
      rw [le_div_iff₀ hk]
      linarith
    apply max_le
    · apply le_min
      · linarith
      · linarith
    · apply le_min
      · linarith
      · norm_num

/-- Witness for C3 at `σ = 0.1`, `r = 0.018` (the source's risk-free
rate), with the CDF held at 1/2. -/
theorem C3_witness :
    (0:ℝ) ≤ 0.1 ∧ (0:ℝ) < 0.018
    ∧ ((1:ℝ)/500 ≤ 0.018 + 0.4 * 0.1 ∧ (0.018 + 0.4 * 0.1 : ℝ) ≤ 20)
    ∧ max (0.1 * (1 / ((0.018:ℝ) + 0.4 * 0.1))) 0.5
        ≤ min (10 * (1 / ((0.018:ℝ) + 0.4 * 0.1))) 50 := by
  have h := C3_bracket_seeding_and_tolerance (fun _ => (1:ℝ)/2) 0.1 0.018
    (by norm_num) (by norm_num)
  exact ⟨by norm_num, by norm_num, ⟨by norm_num, by norm_num⟩,
    h.2.2 (by norm_num) (by norm_num)⟩

/-- C1: for `σ ≥ 0`, `r > 0`, every successful solve is a (finite, by the
codomain `ℝ`) strictly positive `n`; when the residual has the same sign
at both bracket endpoints the solver returns the failure marker (the
ValueError of scipy's SIGNERR path, caught and turned into NaN); an
exhausted iteration budget returns the failure marker; and the sweep is
total and pointwise — each grid point gets its own solve result and the
validity mask records exactly the failed points, so one failure never
aborts the sweep. -/
theorem C1_solver_failure_isolation (Phi : ℝ → ℝ) (sigma r : ℝ)
    (hs : 0 ≤ sigma) (hr : 0 < r) :
    (∀ n, psychological_anchor_nonlinear Phi sigma r 0.4 = some n → 0 < n)
    ∧ (0 < equation Phi sigma r (max (0.1 * (1 / (r + 0.4 * sigma))) 0.5)
          * equation Phi sigma r (min (10 * (1 / (r + 0.4 * sigma))) 50) →
        psychological_anchor_nonlinear Phi sigma r 0.4 = none)
    ∧ (∀ xa fa dm : ℝ,
        bisectGo (equation Phi sigma r) 1e-6 scipy_rtol fa 0 xa dm = none)
    ∧ (∀ grid : List ℝ,
        (n_nonlin Phi grid).length = grid.length
        ∧ ∀ i, i < grid.length →
            (n_nonlin Phi grid).getD i none
              = psychological_anchor_nonlinear Phi (grid.getD i 0) 0.018 0.4
            ∧ ((valid_mask Phi grid).getD i true = false
              ↔ psychological_anchor_nonlinear Phi (grid.getD i 0) 0.018 0.4
                  = none)) := by
  have h04 : (0:ℝ) ≤ 0.4 * sigma := mul_nonneg (by norm_num) hs
  have hk : 0 < r + 0.4 * sigma := by linarith
  have hg_pos : 0 < 1 / (r + 0.4 * sigma) := one_div_pos.2 hk
  refine ⟨?_, ?_, ?_, ?_⟩
  · intro n h
    have hmem := scipyBisect_mem (equation Phi sigma r)
      (max (0.1 * (1 / (r + 0.4 * sigma))) 0.5)
      (min (10 * (1 / (r + 0.4 * sigma))) 50) 1e-6 scipy_rtol 100 n h
    have hlo : (0:ℝ) < max (0.1 * (1 / (r + 0.4 * sigma))) 0.5 :=
      lt_max_of_lt_right (by norm_num)
    have hhi : (0:ℝ) < min (10 * (1 / (r + 0.4 * sigma))) 50 :=
      lt_min (by linarith) (by norm_num)
    have := lt_min hlo hhi
    linarith [hmem.1]
  · intro hpos
    show scipyBisect (equation Phi sigma r)
      (max (0.1 * (1 / (r + 0.4 * sigma))) 0.5)
      (min (10 * (1 / (r + 0.4 * sigma))) 50) 1e-6 scipy_rtol 100 = none
    simp only [scipyBisect]
    rw [if_pos hpos]
  · intro xa fa dm
    rfl
  · intro grid
    refine ⟨by simp [n_nonlin], ?_⟩
    intro i hi
    have hi2 : i < (n_nonlin Phi grid).length := by
      simpa [n_nonlin] using hi
    have hval : (n_nonlin Phi grid).getD i none
        = psychological_anchor_nonlinear Phi (grid.getD i 0) 0.018 0.4 := by
      rw [List.getD_eq_getElem _ _ hi2]
      simp only [n_nonlin, List.getElem_map]
      rw [List.getD_eq_getElem _ _ hi]
    have hi3 : i < (valid_mask Phi grid).length := by
      simpa [valid_mask, n_nonlin] using hi
    have hmask : (valid_mask Phi grid).getD i true
        = (psychological_anchor_nonlinear Phi (grid.getD i 0) 0.018 0.4).isSome := by
      rw [List.getD_eq_getElem _ _ hi3]
      simp only [valid_mask, n_nonlin, List.getElem_map]
      rw [List.getD_eq_getElem _ _ hi]
    refine ⟨hval, ?_⟩
    rw [hmask]
    cases hcase : psychological_anchor_nonlinear Phi (grid.getD i 0) 0.018 0.4
      <;> simp

/-- Witness for C1 at `σ = 0.1`, `r = 0.018`, CDF held at 1/2, with the
one-point grid `[0.1]`. -/
theorem C1_witness :
    (0:ℝ) ≤ 0.1 ∧ (0:ℝ) < 0.018
    ∧ (∀ xa fa dm : ℝ,
        bisectGo (equation (fun _ => (1:ℝ)/2) 0.1 0.018) 1e-6 scipy_rtol
          fa 0 xa dm = none)
    ∧ (n_nonlin (fun _ => (1:ℝ)/2) [0.1]).length = 1 := by
  have h := C1_solver_failure_isolation (fun _ => (1:ℝ)/2) 0.1 0.018
    (by norm_num) (by norm_num)
  refine ⟨by norm_num, by norm_num, h.2.2.1, ?_⟩
  have h2 := (h.2.2.2 [0.1]).1
  simpa using h2
